import Mathlib

/-!
Shallow embedding of `labelme/shape.py` (classes `Shape`, `MultipoinstShape`,
`MaskShape`) and verification of the specification's claims about it.

Modelling conventions:
* `QPointF` is modelled as a pair of rationals; Qt's `==` on `QPointF` is exact
  coordinate equality, which matches decidable equality on `ℚ × ℚ`.
* GUI-only state (colors, pens, painting) is outside the embedded state: no
  claim mentions it and it never feeds back into the geometry.
* Python exceptions are modelled with `Except` where a claim is about the
  raising behaviour (the `shape_type` setter); branches that the source
  reaches only through an out-of-range index (which would raise `IndexError`
  before any mutation) are modelled as leaving the state unchanged and the
  theorems carry the corresponding in-range hypotheses.
* `cv2.findContours` and `cv2.approxPolyDP` are external library calls, not
  code of this repository: `toPolygons` is embedded as a function of the
  contour list, the hierarchy array and an abstract simplification function
  `approx` standing for `cv2.approxPolyDP(·, epsilon, True)`.
-/

namespace Labelme

/-- A 2-D point (`QtCore.QPointF`), with exact coordinate equality. -/
abbrev Point : Type := ℚ × ℚ

/-- The `flags` mapping carried by shapes; opaque passthrough data. -/
abbrev Flags : Type := List (String × Bool)

/-- Highlight mode constants: `Shape.MOVE_VERTEX = 0`, `Shape.NEAR_VERTEX = 1`. -/
def MOVE_VERTEX : Nat := 0

/-- `Shape.NEAR_VERTEX = 1`. -/
def NEAR_VERTEX : Nat := 1

/-- State of a `Shape` object (the vertex-list shape class of `shape.py`).
Fields mirror the attributes set in `Shape.__init__`; the private attribute
`_shape_type` is the field `shape_type` (accessed via the property),
`_closed` is `closed`, `_highlightIndex` is `highlightIndex`,
`_highlightMode` is `highlightMode`. -/
structure Shape where
  label : Option String
  group_id : Option Int
  points : List Point
  fill : Bool
  selected : Bool
  shape_type : String
  flags : Option Flags
  description : Option String
  closed : Bool
  highlightIndex : Option Nat
  highlightMode : Nat
deriving DecidableEq

/-- The six admissible `shape_type` strings (the list in the property setter). -/
def validShapeTypes : List String :=
  ["polygon", "rectangle", "point", "line", "circle", "linestrip"]

/-- The `shape_type` property setter's validation: `None` defaults to
`"polygon"`; a value outside the six admissible strings raises
`ValueError("Unexpected shape_type: ...")` (the spec's `ValidationError`). -/
def shapeTypeOfValue (value : Option String) : Except String String :=
  let v := value.getD "polygon"
  if v ∈ validShapeTypes then .ok v
  else .error ("Unexpected shape_type: " ++ v)

/-- `Shape.shape_type` setter on an existing shape: on success only the
`shape_type` field changes; on failure the exception propagates and the
object is untouched (the `Except.error` branch carries no new state). -/
def Shape.setShapeType (s : Shape) (value : Option String) : Except String Shape :=
  match shapeTypeOfValue value with
  | .ok v => .ok { s with shape_type := v }
  | .error e => .error e

/-- `Shape.__init__`: builds the initial state; the `shape_type` assignment
goes through the property setter, so an invalid kind raises and no object is
produced. -/
def Shape.init (label : Option String) (shape_type : Option String)
    (flags : Option Flags) (group_id : Option Int) (description : Option String) :
    Except String Shape :=
  match shapeTypeOfValue shape_type with
  | .ok v =>
      .ok { label := label
            group_id := group_id
            points := []
            fill := false
            selected := false
            shape_type := v
            flags := flags
            description := description
            closed := false
            highlightIndex := none
            highlightMode := NEAR_VERTEX }
  | .error e => .error e

/-- `Shape.close`. -/
def Shape.close (s : Shape) : Shape := { s with closed := true }

/-- `Shape.addPoint`: if `points` is non-empty and the new point equals
`points[0]`, close the shape; otherwise append the point. -/
def Shape.addPoint (s : Shape) (point : Point) : Shape :=
  match s.points with
  | p0 :: _ => if point = p0 then s.close else { s with points := s.points ++ [point] }
  | [] => { s with points := s.points ++ [point] }

/-- `Shape.canAddPoint`: true exactly for the `polygon` and `linestrip` kinds. -/
def Shape.canAddPoint (s : Shape) : Bool :=
  s.shape_type ∈ ["polygon", "linestrip"]

/-- `Shape.popPoint`: removes and returns the last point, or returns `None`
on an empty shape. -/
def Shape.popPoint (s : Shape) : Option Point × Shape :=
  match s.points.getLast? with
  | some p => (some p, { s with points := s.points.dropLast })
  | none => (none, s)

/-- `Shape.insertPoint`: `list.insert(i, point)`; a Python index past the end
appends (Python `insert` clamps). -/
def Shape.insertPoint (s : Shape) (i : Nat) (point : Point) : Shape :=
  { s with points := s.points.insertIdx (min i s.points.length) point }

/-- `Shape.removePoint`: returns the new state and whether a warning was
logged.  Refuses (state unchanged, warning) when `canAddPoint()` is false,
when the kind is `polygon` with at most 3 points, or `linestrip` with at most
2 points; otherwise pops the point at index `i` (an out-of-range `i` raises
`IndexError` in the source with no mutation; modelled as unchanged state,
theorems assume `i` in range). -/
def Shape.removePoint (s : Shape) (i : Nat) : Shape × Bool :=
  if ¬ s.canAddPoint then (s, true)
  else if s.shape_type = "polygon" ∧ s.points.length ≤ 3 then (s, true)
  else if s.shape_type = "linestrip" ∧ s.points.length ≤ 2 then (s, true)
  else ({ s with points := s.points.eraseIdx i }, false)

/-- `Shape.isClosed`. -/
def Shape.isClosed (s : Shape) : Bool := s.closed

/-- `Shape.setOpen`. -/
def Shape.setOpen (s : Shape) : Shape := { s with closed := false }

/-- `Shape.moveBy`: translate every vertex by the offset. -/
def Shape.moveBy (s : Shape) (offset : Point) : Shape :=
  { s with points := s.points.map fun p => (p.1 + offset.1, p.2 + offset.2) }

/-- `Shape.moveVertexBy`: translate one vertex. -/
def Shape.moveVertexBy (s : Shape) (i : Nat) (offset : Point) : Shape :=
  let q : Point := s.points.getD i (0, 0)
  { s with points := s.points.set i (q.1 + offset.1, q.2 + offset.2) }

/-- Squared Euclidean distance between two points. -/
def distSq (a b : Point) : ℚ :=
  (a.1 - b.1) ^ 2 + (a.2 - b.2) ^ 2

/-- Modelled from the spec: `labelme.utils.distancetoline` is not under
`src/`; §4.1 specifies `distanceToSegment(point, segment)` as the shortest
distance from a point to a finite segment, with the zero-length segment
handled without division by zero.  The model returns the SQUARED distance
(clamped-projection form); since `x ↦ x²` is strictly monotone on
nonnegative reals, comparing squared distances against squared thresholds is
order-equivalent to comparing Euclidean distances, which is all
`nearestEdge` does with it. -/
def distSqToSegment (p a b : Point) : ℚ :=
  let dd := distSq a b
  if dd = 0 then distSq p a
  else
    let t := ((p.1 - a.1) * (b.1 - a.1) + (p.2 - a.2) * (b.2 - a.2)) / dd
    let t' := max 0 (min 1 t)
    distSq p (a.1 + t' * (b.1 - a.1), a.2 + t' * (b.2 - a.2))

/-- The edge with trailing index `i` of a shape: the segment
`(points[i-1], points[i])`, Python's `points[i-1]` wrapping to the last point
when `i = 0`. -/
def Shape.edge (s : Shape) (i : Nat) : Point × Point :=
  (if i = 0 then s.points.getLast?.getD (0, 0) else s.points.getD (i - 1) (0, 0),
   s.points.getD i (0, 0))

/-- Squared distance from `point` to edge `i` of the shape. -/
def Shape.edgeDistSq (s : Shape) (point : Point) (i : Nat) : ℚ :=
  distSqToSegment point (s.edge i).1 (s.edge i).2

/-- One step of the min-tracking loops of `nearestVertex` / `nearestEdge`:
the accumulator is `none` while `min_distance` is still infinite, otherwise
`some (min_distance, min_i)`; an index is taken when its distance is within
the threshold and strictly below the current minimum. -/
def nearestStep (dist : Nat → ℚ) (epsSq : ℚ) (acc : Option (ℚ × Nat)) (i : Nat) :
    Option (ℚ × Nat) :=
  let d := dist i
  match acc with
  | none => if d ≤ epsSq then some (d, i) else none
  | some (m, j) => if d ≤ epsSq ∧ d < m then some (d, i) else some (m, j)

/-- The min-tracking loop over a list of indices. -/
def nearestLoop (dist : Nat → ℚ) (epsSq : ℚ) (l : List Nat) (acc : Option (ℚ × Nat)) :
    Option (ℚ × Nat) :=
  match l with
  | [] => acc
  | i :: rest => nearestLoop dist epsSq rest (nearestStep dist epsSq acc i)

/-- `Shape.nearestEdge`: index of the edge closest to `point` among those
within `epsilon`, or `None`.  Distances are compared in squared form (see
`distSqToSegment`), so the threshold is `epsilon²`. -/
def Shape.nearestEdge (s : Shape) (point : Point) (epsilon : ℚ) : Option Nat :=
  (nearestLoop (s.edgeDistSq point) (epsilon ^ 2) (List.range s.points.length) none).map
    fun x => x.2

/-- `Shape.nearestVertex`: index of the vertex closest to `point` among those
within `epsilon`, or `None`; same squared-comparison convention. -/
def Shape.nearestVertex (s : Shape) (point : Point) (epsilon : ℚ) : Option Nat :=
  (nearestLoop (fun i => distSq (s.points.getD i (0, 0)) point) (epsilon ^ 2)
      (List.range s.points.length) none).map fun x => x.2

/-- State of a `MultipoinstShape` (the labeled point-prompt shape; the class
name's spelling is the source's).  `labels[i]` is the positive/negative flag
of `points[i]`. -/
structure MultipoinstShape where
  points : List Point
  labels : List Bool
  selected : Bool
  closed : Bool
deriving DecidableEq

/-- `MultipoinstShape.__init__`: empty points and labels. -/
def MultipoinstShape.init : MultipoinstShape :=
  { points := [], labels := [], selected := false, closed := false }

/-- `MultipoinstShape.addPoint(point, is_positive)`: appends the point and
its label unless `points` is non-empty and the point equals `points[0]`. -/
def MultipoinstShape.addPoint (s : MultipoinstShape) (point : Point)
    (positive : Bool := true) : MultipoinstShape :=
  match s.points with
  | p0 :: _ =>
      if point ≠ p0 then
        { s with points := s.points ++ [point], labels := s.labels ++ [positive] }
      else s
  | [] => { s with points := s.points ++ [point], labels := s.labels ++ [positive] }

/-- `MultipoinstShape.popPoint`: if `points` is non-empty, pops the last
label and the last point, returning the point; else returns `None`.  (If
`labels` were empty while `points` is not — unreachable under the length
invariant — the source's `labels.pop()` would raise `IndexError` before any
mutation; modelled as returning `None` with the state unchanged.) -/
def MultipoinstShape.popPoint (s : MultipoinstShape) : Option Point × MultipoinstShape :=
  match s.points, s.labels with
  | _ :: _, _ :: _ =>
      (s.points.getLast?,
       { s with points := s.points.dropLast, labels := s.labels.dropLast })
  | _ :: _, [] => (none, s)
  | [], _ => (none, s)

/-- `MultipoinstShape.removePoint(i)`: warning no-op when at most one point
remains; otherwise pops `labels[i]` and `points[i]` (out-of-range `i` raises
in the source before mutating; modelled as unchanged). -/
def MultipoinstShape.removePoint (s : MultipoinstShape) (i : Nat) :
    MultipoinstShape × Bool :=
  if s.points.length ≤ 1 then (s, true)
  else if i < s.labels.length ∧ i < s.points.length then
    ({ s with points := s.points.eraseIdx i, labels := s.labels.eraseIdx i }, false)
  else (s, false)

/-- `MultipoinstShape.moveBy`. -/
def MultipoinstShape.moveBy (s : MultipoinstShape) (offset : Point) : MultipoinstShape :=
  { s with points := s.points.map fun p => (p.1 + offset.1, p.2 + offset.2) }

/-- `MultipoinstShape.moveVertexBy`. -/
def MultipoinstShape.moveVertexBy (s : MultipoinstShape) (i : Nat) (offset : Point) :
    MultipoinstShape :=
  let q : Point := s.points.getD i (0, 0)
  { s with points := s.points.set i (q.1 + offset.1, q.2 + offset.2) }

/-- The operations of `MultipoinstShape` that touch `points`/`labels`, for
stating the length invariant over arbitrary operation sequences. -/
inductive MOp where
  | add (p : Point) (positive : Bool)
  | pop
  | remove (i : Nat)
  | move (offset : Point)
  | moveVertex (i : Nat) (offset : Point)

/-- Apply one operation to a `MultipoinstShape` state (return values of
`popPoint`/`removePoint` are discarded; only the state matters for the
invariant). -/
def MOp.apply (s : MultipoinstShape) : MOp → MultipoinstShape
  | .add p positive => s.addPoint p positive
  | .pop => (s.popPoint).2
  | .remove i => (s.removePoint i).1
  | .move offset => s.moveBy offset
  | .moveVertex i offset => s.moveVertexBy i offset

/-- The `PointPromptShape` length invariant: `len(points) == len(labels)`. -/
def MultipoinstShape.inv (s : MultipoinstShape) : Prop :=
  s.points.length = s.labels.length

instance (s : MultipoinstShape) : Decidable s.inv := by
  unfold MultipoinstShape.inv; infer_instance

/-- One entry of the `cv2.RETR_CCOMP` hierarchy array: `[next sibling,
previous sibling, first child, parent]`, `-1` meaning "none". -/
structure HierEntry where
  next : Int
  prev : Int
  child : Int
  parent : Int
deriving DecidableEq

/-- State of a `MaskShape` (the raster-mask shape).  The mask raster itself
only ever reaches `toPolygons` through `cv2.findContours`, which is external;
the embedded state keeps the passthrough fields and the scale. -/
structure MaskShape where
  label : Option String
  group_id : Option Int
  flags : Option Flags
  description : Option String
  scale : ℚ
deriving DecidableEq

/-- Descale a contour by `scale` (the `contour[:, 0, :] / self.scale` step)
and close it by appending its first point (`np.concatenate([contour,
contour[:1]])`). -/
def descaleClose (scale : ℚ) (l : List Point) : List Point :=
  let d := l.map fun q => (q.1 / scale, q.2 / scale)
  d ++ d.take 1

/-- The inner `while child_current_idx != -1` loop of `toPolygons`: walk the
child (hole) sibling chain; every child contour with at least `10 / scale`
raw points is simplified (`approx`), descaled, closed, and spliced into the
ring as `contour[:2] ++ child ++ contour[1:]`.  Fuel bounds the walk (cv2
guarantees a finite sibling chain; an index that is `-1` or out of range
stops the walk). -/
def spliceChildren (approx : List Point → List Point) (scale : ℚ)
    (contours : List (List Point)) (hier : List HierEntry) :
    Nat → Int → List Point → List Point
  | 0, _, contour => contour
  | fuel + 1, idx, contour =>
    if h : 0 ≤ idx ∧ idx.toNat < hier.length then
      let e := hier.get ⟨idx.toNat, h.2⟩
      let child := contours.getD idx.toNat []
      let contour' :=
        if (10 : ℚ) / scale ≤ child.length then
          contour.take 2 ++ descaleClose scale (approx child) ++ contour.drop 1
        else contour
      spliceChildren approx scale contours hier fuel e.next contour'
    else contour

/-- The polygon `Shape` that `toPolygons` constructs for a ring:
`Shape(shape_type="polygon", label=..., group_id=..., flags=...,
description=...)`. -/
def MaskShape.newPolygonShape (m : MaskShape) : Shape :=
  { label := m.label
    group_id := m.group_id
    points := []
    fill := false
    selected := false
    shape_type := "polygon"
    flags := m.flags
    description := m.description
    closed := false
    highlightIndex := none
    highlightMode := NEAR_VERTEX }

/-- The `for x, y in contour: shape.addPoint(QtCore.QPointF(x, y))` loop. -/
def addAll (s : Shape) (l : List Point) : Shape :=
  l.foldl Shape.addPoint s

/-- The outer `while current_idx != -1` loop of `toPolygons`: process the
outer contour at `idx` (simplify, descale, close, splice children), skip it
if the resulting ring has fewer than 5 points, else emit a polygon shape fed
point-by-point through `addPoint`; then continue with the next sibling. -/
def toPolygonsGo (m : MaskShape) (approx : List Point → List Point)
    (contours : List (List Point)) (hier : List HierEntry) :
    Nat → Int → List Shape
  | 0, _ => []
  | fuel + 1, idx =>
    if h : 0 ≤ idx ∧ idx.toNat < hier.length then
      let e := hier.get ⟨idx.toNat, h.2⟩
      let contour0 := descaleClose m.scale (approx (contours.getD idx.toNat []))
      let ring := spliceChildren approx m.scale contours hier (hier.length + 1) e.child contour0
      let rest := toPolygonsGo m approx contours hier fuel e.next
      if ring.length < 5 then rest
      else addAll m.newPolygonShape ring :: rest
    else []

/-- `MaskShape.toPolygons(epsilon)`, as a function of the external
`cv2.findContours` result (`contours`, `hier`) and of `approx`, the abstract
`cv2.approxPolyDP(·, epsilon, True)`: empty contour list gives no shapes;
otherwise traverse the sibling chain starting at hierarchy index 0. -/
def MaskShape.toPolygons (m : MaskShape) (approx : List Point → List Point)
    (contours : List (List Point)) (hier : List HierEntry) : List Shape :=
  if contours.length = 0 then []
  else toPolygonsGo m approx contours hier (hier.length + 1) 0

/-- The guard of `Shape.removePoint`: the operation refuses when
`canAddPoint()` is false, or the kind is `polygon` with at most 3 points, or
`linestrip` with at most 2 points. -/
def Shape.removeBlocked (s : Shape) : Prop :=
  s.canAddPoint = false ∨ (s.shape_type = "polygon" ∧ s.points.length ≤ 3) ∨
    (s.shape_type = "linestrip" ∧ s.points.length ≤ 2)

/-- A concrete rectangle shape already holding its two corner points. -/
def rectTwo : Shape :=
  { label := none, group_id := none, points := [(0, 0), (1, 1)], fill := false,
    selected := false, shape_type := "rectangle", flags := none,
    description := none, closed := false, highlightIndex := none,
    highlightMode := NEAR_VERTEX }

/-- Spec-side description of `toPolygons` (§4.4 of the spec): the chain of
hierarchy indices reached by repeatedly following `next` links from a start
index, stopping at `-1` (or any out-of-range index), truncated by fuel like
the embedded while-loops. -/
def hierChain (hier : List HierEntry) : Nat → Int → List Nat
  | 0, _ => []
  | fuel + 1, idx =>
    if h : 0 ≤ idx ∧ idx.toNat < hier.length then
      idx.toNat :: hierChain hier fuel (hier.get ⟨idx.toNat, h.2⟩).next
    else []

/-- Spec-side splice of one hole: if the raw child contour at index `j` has
at least `10 / scale` points, simplify, descale, close it and splice it as
`outer[0:2] ++ hole(closed) ++ outer[1:]`; otherwise leave the ring alone. -/
def spliceStep (approx : List Point → List Point) (scale : ℚ)
    (contours : List (List Point)) (c : List Point) (j : Nat) : List Point :=
  let child := contours.getD j []
  if (10 : ℚ) / scale ≤ child.length then
    c.take 2 ++ descaleClose scale (approx child) ++ c.drop 1
  else c

/-- Spec-side ring of one outer contour: the simplified, descaled, closed
outer contour with every qualifying hole of its child chain spliced in. -/
def ringOf (approx : List Point → List Point) (scale : ℚ)
    (contours : List (List Point)) (hier : List HierEntry) (i : Nat) : List Point :=
  (hierChain hier (hier.length + 1) ((hier.getD i ⟨-1, -1, -1, -1⟩).child)).foldl
    (spliceStep approx scale contours)
    (descaleClose scale (approx (contours.getD i [])))

/-- Spec-side description of `MaskShape.toPolygons` built from the spec's
sentences: traverse the outer contours in sibling-chain order from hierarchy
index 0, build each ring by the splice rule, discard any ring with fewer
than 5 points, and emit each surviving ring as one polygon shape fed through
`addPoint`. -/
def toPolygonsSpec (m : MaskShape) (approx : List Point → List Point)
    (contours : List (List Point)) (hier : List HierEntry) : List Shape :=
  if contours.length = 0 then []
  else
    (hierChain hier (hier.length + 1) 0).filterMap fun i =>
      let r := ringOf approx m.scale contours hier i
      if r.length < 5 then none else some (addAll m.newPolygonShape r)

/-- A ring invariant: the point sequence is empty, or has at least two
points and starts and ends with the same point. -/
def ringOK (r : List Point) : Prop :=
  r = [] ∨ (2 ≤ r.length ∧ r.head? = r.getLast?)

/-- Concrete `MaskShape` at scale 1 for the `toPolygons` examples. -/
def maskEx : MaskShape :=
  { label := none, group_id := none, flags := none, description := none, scale := 1 }

/-- A concrete single-contour `findContours` result: one 5-point outer
contour, no children. -/
def contoursEx : List (List Point) := [[(0, 0), (10, 0), (10, 10), (0, 10), (5, 5)]]

/-- Hierarchy for `contoursEx`: a single entry with no sibling and no child. -/
def hierEx : List HierEntry := [⟨-1, -1, -1, -1⟩]

/-- The polygon shape that `toPolygons` emits for `contoursEx` at scale 1:
the five contour points (the closing duplicate is consumed by `addPoint`,
which closes the shape instead of appending). -/
def shapeEx : Shape :=
  { label := none, group_id := none,
    points := [(0, 0), (10, 0), (10, 10), (0, 10), (5, 5)], fill := false,
    selected := false, shape_type := "polygon", flags := none,
    description := none, closed := true, highlightIndex := none,
    highlightMode := NEAR_VERTEX }

/-- A concrete 4-vertex polygon ring, for `nearestEdge` examples. -/
def ringShape : Shape :=
  { label := none, group_id := none,
    points := [(0, 0), (10, 0), (10, 10), (0, 10)], fill := false,
    selected := false, shape_type := "polygon", flags := none,
    description := none, closed := false, highlightIndex := none,
    highlightMode := NEAR_VERTEX }

end Labelme

namespace Labelme

/-- C2 counterexample: a rectangle already holding 2 points accepts a third
through `addPoint` (the method never consults `canAddPoint`), so `addPoint`
does not preserve the "at most 2 points" invariant for rectangles. -/
theorem rectangle_addPoint_exceeds_two :
    rectTwo.shape_type = "rectangle" ∧ rectTwo.points.length ≤ 2 ∧
      ¬ ((rectTwo.addPoint (2, 2)).points.length ≤ 2) := by
  decide

/-- C2 (amended): for every shape of kind `rectangle` or `circle`,
`canAddPoint()` is false and `removePoint` is a warning no-op; but `addPoint`
and `insertPoint` do not themselves check the kind, so the "at most 2 points"
bound is maintained only by callers consulting `canAddPoint` before adding. -/
theorem fixed_arity_guard (s : Shape) (i : Nat)
    (h : s.shape_type = "rectangle" ∨ s.shape_type = "circle") :
    s.canAddPoint = false ∧ s.removePoint i = (s, true) := by
  have hc : s.canAddPoint = false := by
    rcases h with h | h <;> simp [Shape.canAddPoint, h]
  refine ⟨hc, ?_⟩
  rcases h with h | h <;> simp [Shape.removePoint, hc, h]

/-- Witness for C2's amended theorem at a concrete 2-point rectangle. -/
theorem fixed_arity_guard_witness :
    rectTwo.canAddPoint = false ∧ rectTwo.removePoint 0 = (rectTwo, true) :=
  fixed_arity_guard rectTwo 0 (Or.inl (by decide))

/-- C3: constructing a shape with a `kind` string outside the six enumerated
values, or setting the kind to such a value later, fails with the validation
error (`ValueError`, the spec's `ValidationError`) raised immediately; the
`Except.error` result carries no new state, so the caller's shape keeps its
prior kind and all other fields — the failure is atomic. -/
theorem invalid_shape_type_rejected (v : String) (hv : v ∉ validShapeTypes) :
    (∀ label flags gid desc,
        Shape.init label (some v) flags gid desc =
          .error ("Unexpected shape_type: " ++ v)) ∧
      (∀ s : Shape,
        s.setShapeType (some v) = .error ("Unexpected shape_type: " ++ v)) := by
  constructor
  · intro label flags gid desc
    simp [Shape.init, shapeTypeOfValue, hv]
  · intro s
    simp [Shape.setShapeType, shapeTypeOfValue, hv]

/-- Witness for C3 at the concrete invalid kind `"triangle"`. -/
theorem invalid_shape_type_rejected_witness :
    Shape.init none (some "triangle") none none none =
        .error "Unexpected shape_type: triangle" ∧
      rectTwo.setShapeType (some "triangle") =
        .error "Unexpected shape_type: triangle" :=
  ⟨(invalid_shape_type_rejected "triangle" (by decide)).1 none none none none,
   (invalid_shape_type_rejected "triangle" (by decide)).2 rectTwo⟩

/-- C4: `addPoint(p)` with `p` exactly equal to `points[0]` (non-empty
points) closes the shape and leaves the point list unchanged; for any other
`p`, or on empty points, it appends `p` and leaves `closed` unchanged. -/
theorem addPoint_first_point_closes (s : Shape) (p : Point) :
    (s.points.head? = some p → s.addPoint p = { s with closed := true }) ∧
      (s.points.head? ≠ some p →
        s.addPoint p = { s with points := s.points ++ [p] }) := by
  constructor
  · intro h
    cases hp : s.points with
    | nil => simp [hp] at h
    | cons p0 rest =>
        rw [hp] at h
        simp only [List.head?] at h
        injection h with h
        simp [Shape.addPoint, hp, h, Shape.close]
  · intro h
    cases hp : s.points with
    | nil => simp [Shape.addPoint, hp]
    | cons p0 rest =>
        rw [hp] at h
        simp only [List.head?] at h
        have : p ≠ p0 := fun hh => h (by rw [hh])
        simp [Shape.addPoint, hp, this]

/-- Witness for C4: closing on the repeated first point and appending a
fresh point, on the concrete ring shape. -/
theorem addPoint_first_point_closes_witness :
    ringShape.addPoint (0, 0) = { ringShape with closed := true } ∧
      ringShape.addPoint (5, 5) =
        { ringShape with points := ringShape.points ++ [(5, 5)] } :=
  ⟨(addPoint_first_point_closes ringShape (0, 0)).1 (by decide),
   (addPoint_first_point_closes ringShape (5, 5)).2 (by decide)⟩

/-- C6 counterexample: `popPoint` returns only the popped point, not the
point+label pair — two states with the same points but different labels get
the identical return value, so the label cannot be part of it. -/
theorem popPoint_return_lacks_label :
    (MultipoinstShape.popPoint
        { points := [(1, 1)], labels := [true], selected := false, closed := false }).1 =
      (MultipoinstShape.popPoint
        { points := [(1, 1)], labels := [false], selected := false, closed := false }).1 ∧
      ([true] : List Bool) ≠ [false] := by
  decide

/-- C6 (amended): on a non-empty `MultipoinstShape` satisfying the length
invariant, `popPoint` removes the last point and its label and returns the
last POINT (the popped label is discarded, not returned); on an empty shape
it returns `None` and changes nothing. -/
theorem popPoint_pops_point_and_label (s : MultipoinstShape) (hinv : s.inv) :
    (s.points ≠ [] →
        s.popPoint = (s.points.getLast?,
          { s with points := s.points.dropLast, labels := s.labels.dropLast })) ∧
      (s.points = [] → s.popPoint = (none, s)) := by
  constructor
  · intro hne
    cases hp : s.points with
    | nil => exact absurd hp hne
    | cons p0 rest =>
        cases hl : s.labels with
        | nil =>
            exfalso
            rw [MultipoinstShape.inv, hp, hl] at hinv
            simp at hinv
        | cons l0 lrest => simp [MultipoinstShape.popPoint, hp, hl]
  · intro he
    simp [MultipoinstShape.popPoint, he]

/-- Witness for C6's amended theorem at a concrete one-point prompt shape. -/
theorem popPoint_pops_point_and_label_witness :
    MultipoinstShape.popPoint
        { points := [(1, 1)], labels := [true], selected := false, closed := false } =
      (some (1, 1),
        { points := [], labels := [], selected := false, closed := false }) :=
  (popPoint_pops_point_and_label
      { points := [(1, 1)], labels := [true], selected := false, closed := false }
      (by decide)).1 (by decide)

/-- Each single `MultipoinstShape` operation preserves the length invariant. -/
theorem mop_apply_inv (s : MultipoinstShape) (op : MOp) (h : s.inv) :
    (MOp.apply s op).inv := by
  rw [MultipoinstShape.inv] at h ⊢
  cases op with
  | add p positive =>
      cases hp : s.points with
      | nil =>
          cases hl : s.labels with
          | nil => simp [MOp.apply, MultipoinstShape.addPoint, hp, hl]
          | cons l0 lrest => rw [hp, hl] at h; simp at h
      | cons p0 rest =>
          rw [hp] at h
          by_cases hq : p ≠ p0
          · simp only [List.length_cons] at h
            simp [MOp.apply, MultipoinstShape.addPoint, hp, hq]
            omega
          · simp [MOp.apply, MultipoinstShape.addPoint, hp, hq, ← h]
  | pop =>
      cases hp : s.points with
      | nil =>
          have hs : MOp.apply s .pop = s := by
            simp [MOp.apply, MultipoinstShape.popPoint, hp]
          rw [hs]; exact h
      | cons p0 rest =>
          cases hl : s.labels with
          | nil => rw [hp, hl] at h; simp at h
          | cons l0 lrest =>
              rw [hp, hl] at h
              simp only [List.length_cons] at h
              simp [MOp.apply, MultipoinstShape.popPoint, hp, hl,
                List.length_dropLast]
              omega
  | remove i =>
      by_cases h1 : s.points.length ≤ 1
      · simp only [MOp.apply, MultipoinstShape.removePoint, h1, if_true]
        exact h
      · by_cases h2 : i < s.labels.length ∧ i < s.points.length
        · simp [MOp.apply, MultipoinstShape.removePoint, h1, h2,
            List.length_eraseIdx, h2.1, h2.2]
          omega
        · have hs : MOp.apply s (.remove i) = s := by
            simp [MOp.apply, MultipoinstShape.removePoint, h1, h2]
          rw [hs]; exact h
  | move offset => simp [MOp.apply, MultipoinstShape.moveBy, h]
  | moveVertex i offset =>
      simp [MOp.apply, MultipoinstShape.moveVertexBy, h]

/-- C7: from any state satisfying `len(points) == len(labels)`, the
invariant holds after each operation of any sequence of `addPoint`,
`popPoint`, `removePoint`, `moveBy`, `moveVertexBy` (i.e. after every prefix
of the sequence). -/
theorem multipoint_length_invariant (s : MultipoinstShape) (ops : List MOp)
    (h : s.inv) (n : Nat) : ((ops.take n).foldl MOp.apply s).inv := by
  have key : ∀ (l : List MOp) (t : MultipoinstShape), t.inv → (l.foldl MOp.apply t).inv := by
    intro l
    induction l with
    | nil => intro t ht; simpa using ht
    | cons op rest ih =>
        intro t ht
        simpa [List.foldl_cons] using ih (MOp.apply t op) (mop_apply_inv t op ht)
  exact key (ops.take n) s h

/-- Witness for C7 on a concrete operation sequence from the
freshly-constructed state. -/
theorem multipoint_length_invariant_witness :
    ((([MOp.add (1, 1) true, MOp.add (2, 2) false, MOp.pop,
        MOp.remove 0, MOp.move (3, 3)]).take 3).foldl MOp.apply
      MultipoinstShape.init).inv :=
  multipoint_length_invariant MultipoinstShape.init
    [MOp.add (1, 1) true, MOp.add (2, 2) false, MOp.pop, MOp.remove 0,
      MOp.move (3, 3)] (by decide) 3

/-- C8: `removePoint(i)` is a warning no-op leaving the whole state
unchanged whenever `canAddPoint()` is false, or the kind is `polygon` with at
most 3 points, or `linestrip` with at most 2 points; otherwise, for an
in-range index, it removes exactly the point at index `i` (no warning, all
other fields unchanged). -/
theorem removePoint_guard (s : Shape) (i : Nat) :
    (s.removeBlocked → s.removePoint i = (s, true)) ∧
      (¬ s.removeBlocked → i < s.points.length →
        s.removePoint i = ({ s with points := s.points.eraseIdx i }, false)) := by
  constructor
  · intro h
    rcases h with h | h | h
    · simp [Shape.removePoint, h]
    · have hc : s.canAddPoint = true := by
        simp [Shape.canAddPoint, h.1]
      simp [Shape.removePoint, hc, h.1, h.2]
    · have hc : s.canAddPoint = true := by
        simp [Shape.canAddPoint, h.1]
      have hnp : ¬ (s.shape_type = "polygon" ∧ s.points.length ≤ 3) := by
        rintro ⟨hp, -⟩
        rw [h.1] at hp
        exact absurd hp (by decide)
      simp [Shape.removePoint, hc, hnp, h.1, h.2]
  · intro h hi
    rw [Shape.removeBlocked] at h
    push_neg at h
    obtain ⟨h1, h2, h3⟩ := h
    have hc : s.canAddPoint = true := by
      cases hcc : s.canAddPoint with
      | false => exact absurd hcc h1
      | true => rfl
    have hnp : ¬ (s.shape_type = "polygon" ∧ s.points.length ≤ 3) := by
      rintro ⟨a, b⟩; exact absurd b (by have := h2 a; omega)
    have hnl : ¬ (s.shape_type = "linestrip" ∧ s.points.length ≤ 2) := by
      rintro ⟨a, b⟩; exact absurd b (by have := h3 a; omega)
    simp [Shape.removePoint, hc, hnp, hnl]

/-- Witness for C8: the no-op branch on a 3-point polygon and the removing
branch on a 4-point polygon. -/
theorem removePoint_guard_witness :
    ({ ringShape with points := [(0, 0), (1, 0), (1, 1)] } : Shape).removePoint 1 =
        ({ ringShape with points := [(0, 0), (1, 0), (1, 1)] }, true) ∧
      ringShape.removePoint 1 =
        ({ ringShape with points := ringShape.points.eraseIdx 1 }, false) :=
  ⟨(removePoint_guard { ringShape with points := [(0, 0), (1, 0), (1, 1)] } 1).1
      (Or.inr (Or.inl (by decide))),
   (removePoint_guard ringShape 1).2
      (by rw [Shape.removeBlocked]; push_neg; refine ⟨by decide, by decide, by decide⟩)
      (by decide)⟩

/-- `nearestStep` yields `none` only from a `none` accumulator and an index
outside the threshold. -/
theorem nearestStep_eq_none (dist : Nat → ℚ) (epsSq : ℚ)
    (acc : Option (ℚ × Nat)) (i : Nat) :
    nearestStep dist epsSq acc i = none ↔ acc = none ∧ ¬ dist i ≤ epsSq := by
  match acc with
  | none =>
      by_cases hd : dist i ≤ epsSq <;> simp [nearestStep, hd]
  | some (m, j) =>
      by_cases hd : dist i ≤ epsSq ∧ dist i < m <;> simp [nearestStep, hd]

/-- The min-tracking loop returns `none` iff it started from `none` and no
scanned index is within the threshold. -/
theorem nearestLoop_eq_none (dist : Nat → ℚ) (epsSq : ℚ) :
    ∀ (l : List Nat) (acc : Option (ℚ × Nat)),
      nearestLoop dist epsSq l acc = none ↔
        acc = none ∧ ∀ i ∈ l, ¬ dist i ≤ epsSq := by
  intro l
  induction l with
  | nil => intro acc; simp [nearestLoop]
  | cons i0 rest ih =>
      intro acc
      rw [nearestLoop, ih, nearestStep_eq_none]
      constructor
      · rintro ⟨⟨h1, h2⟩, h3⟩
        exact ⟨h1, by
          intro j hj
          rcases List.mem_cons.mp hj with rfl | hj
          · exact h2
          · exact h3 j hj⟩
      · rintro ⟨h1, h2⟩
        exact ⟨⟨h1, h2 i0 (List.mem_cons_self i0 rest)⟩,
          fun j hj => h2 j (List.mem_cons_of_mem i0 hj)⟩

/-- Characterization of a `some` result of the min-tracking loop: the
returned pair records the distance of the returned index, that distance is
within the threshold and is minimal among the scanned indices that are
within the threshold (and no larger than anything already in the
accumulator), and the index was scanned or was already in the accumulator. -/
theorem nearestLoop_eq_some (dist : Nat → ℚ) (epsSq : ℚ) :
    ∀ (l : List Nat) (acc : Option (ℚ × Nat)),
      (∀ m j, acc = some (m, j) → m = dist j ∧ m ≤ epsSq) →
      ∀ d i, nearestLoop dist epsSq l acc = some (d, i) →
        (d = dist i ∧ d ≤ epsSq) ∧
          (∀ j ∈ l, dist j ≤ epsSq → d ≤ dist j) ∧
          (∀ m j, acc = some (m, j) → d ≤ m) ∧
          (i ∈ l ∨ acc = some (d, i)) := by
  intro l
  induction l with
  | nil =>
      intro acc hacc d i h
      rw [nearestLoop] at h
      subst h
      refine ⟨hacc d i rfl, by simp, ?_, Or.inr rfl⟩
      intro m j hm
      injection hm with hm
      injection hm with hm1 hm2
      exact le_of_eq hm1
  | cons i0 rest ih =>
      rintro (_ | ⟨m0, j0⟩) hacc d i h
      · rw [nearestLoop] at h
        by_cases hd : dist i0 ≤ epsSq
        · have hstep : nearestStep dist epsSq none i0 = some (dist i0, i0) := by
            simp [nearestStep, hd]
          rw [hstep] at h
          have hacc' : ∀ m j, (some (dist i0, i0) : Option (ℚ × Nat)) = some (m, j) →
              m = dist j ∧ m ≤ epsSq := by
            rintro m j hm
            injection hm with hm
            injection hm with hm1 hm2
            subst hm2; exact ⟨hm1.symm, hm1 ▸ hd⟩
          obtain ⟨h1, h2, h3, h4⟩ := ih _ hacc' d i h
          refine ⟨h1, ?_, by simp, ?_⟩
          · intro j hj hwithin
            rcases List.mem_cons.mp hj with rfl | hj
            · exact h3 (dist j) j rfl
            · exact h2 j hj hwithin
          · rcases h4 with h4 | h4
            · exact Or.inl (List.mem_cons_of_mem i0 h4)
            · injection h4 with h4
              injection h4 with _ h42
              exact Or.inl (h42 ▸ List.mem_cons_self i0 rest)
        · have hstep : nearestStep dist epsSq none i0 = none := by
            simp [nearestStep, hd]
          rw [hstep] at h
          obtain ⟨h1, h2, h3, h4⟩ := ih _ (by simp) d i h
          refine ⟨h1, ?_, by simp, ?_⟩
          · intro j hj hwithin
            rcases List.mem_cons.mp hj with rfl | hj
            · exact absurd hwithin hd
            · exact h2 j hj hwithin
          · rcases h4 with h4 | h4
            · exact Or.inl (List.mem_cons_of_mem i0 h4)
            · exact absurd h4 (by simp)
      · rw [nearestLoop] at h
        have hm0 := hacc m0 j0 rfl
        by_cases hd : dist i0 ≤ epsSq ∧ dist i0 < m0
        · have hstep : nearestStep dist epsSq (some (m0, j0)) i0 = some (dist i0, i0) := by
            simp [nearestStep, hd]
          rw [hstep] at h
          have hacc' : ∀ m j, (some (dist i0, i0) : Option (ℚ × Nat)) = some (m, j) →
              m = dist j ∧ m ≤ epsSq := by
            rintro m j hm
            injection hm with hm
            injection hm with hm1 hm2
            subst hm2; exact ⟨hm1.symm, hm1 ▸ hd.1⟩
          obtain ⟨h1, h2, h3, h4⟩ := ih _ hacc' d i h
          have hdle : d ≤ dist i0 := h3 (dist i0) i0 rfl
          refine ⟨h1, ?_, ?_, ?_⟩
          · intro j hj hwithin
            rcases List.mem_cons.mp hj with rfl | hj
            · exact hdle
            · exact h2 j hj hwithin
          · rintro m j hm
            injection hm with hm
            injection hm with hm1 hm2
            exact le_trans hdle (le_of_lt (hm1 ▸ hd.2))
          · rcases h4 with h4 | h4
            · exact Or.inl (List.mem_cons_of_mem i0 h4)
            · injection h4 with h4
              injection h4 with _ h42
              exact Or.inl (h42 ▸ List.mem_cons_self i0 rest)
        · have hstep : nearestStep dist epsSq (some (m0, j0)) i0 = some (m0, j0) := by
            simp [nearestStep, hd]
          rw [hstep] at h
          obtain ⟨h1, h2, h3, h4⟩ := ih _ (by
            rintro m j hm
            injection hm with hm
            injection hm with hm1 hm2
            exact hm1 ▸ hm2 ▸ hacc m0 j0 rfl) d i h
          have hdle : d ≤ m0 := h3 m0 j0 rfl
          refine ⟨h1, ?_, ?_, ?_⟩
          · intro j hj hwithin
            rcases List.mem_cons.mp hj with rfl | hj
            · have hge : m0 ≤ dist j := by
                rcases not_and_or.mp hd with hd' | hd'
                · exact absurd hwithin hd'
                · exact not_lt.mp hd'
              exact le_trans hdle hge
            · exact h2 j hj hwithin
          · rintro m j hm
            injection hm with hm
            injection hm with hm1 hm2
            exact hm1 ▸ hdle
          · rcases h4 with h4 | h4
            · exact Or.inl (List.mem_cons_of_mem i0 h4)
            · exact Or.inr h4

/-- C5: `nearestEdge(p, epsilon)` returns the trailing index `i` of the
closest edge — edge `i` being the segment `(points[i-1], points[i])`, with
`i = 0` wrapping to the last point — provided that edge is within `epsilon`
of `p` (distances compared in squared form, which is order-equivalent);
it returns `none` exactly when no edge is within `epsilon`; and on the
rectangle ring `[(0,0),(10,0),(10,10),(0,10)]` with query `(5, 0.1)` and
`epsilon = 5` it returns edge index 1. -/
theorem nearestEdge_trailing_index :
    (∀ (s : Shape) (p : Point) (epsilon : ℚ),
      (s.nearestEdge p epsilon = none ↔
        ∀ i < s.points.length, ¬ s.edgeDistSq p i ≤ epsilon ^ 2) ∧
      (∀ i, s.nearestEdge p epsilon = some i →
        i < s.points.length ∧ s.edgeDistSq p i ≤ epsilon ^ 2 ∧
          ∀ j < s.points.length, s.edgeDistSq p i ≤ s.edgeDistSq p j)) ∧
    ringShape.nearestEdge (5, 1 / 10) 5 = some 1 := by
  constructor
  · intro s p epsilon
    constructor
    · rw [Shape.nearestEdge, Option.map_eq_none']
      rw [nearestLoop_eq_none]
      simp [List.mem_range]
    · intro i hi
      rw [Shape.nearestEdge] at hi
      rcases Option.map_eq_some'.mp hi with ⟨⟨d, i'⟩, hl, hi'⟩
      cases hi'
      obtain ⟨⟨hd1, hd2⟩, hmin, -, hmem⟩ :=
        nearestLoop_eq_some (s.edgeDistSq p) (epsilon ^ 2)
          (List.range s.points.length) none (by simp) d i' hl
      have hlt : i' < s.points.length := by
        rcases hmem with hmem | hmem
        · exact List.mem_range.mp hmem
        · exact absurd hmem (by simp)
      refine ⟨hlt, hd1 ▸ hd2, ?_⟩
      intro j hj
      by_cases hw : s.edgeDistSq p j ≤ epsilon ^ 2
      · exact hd1 ▸ hmin j (List.mem_range.mpr hj) hw
      · have : epsilon ^ 2 < s.edgeDistSq p j := not_le.mp hw
        calc s.edgeDistSq p i' ≤ epsilon ^ 2 := hd1 ▸ hd2
          _ ≤ s.edgeDistSq p j := le_of_lt this
  · have hr : List.range (ringShape.points.length) = [0, 1, 2, 3] := by decide
    norm_num [Shape.nearestEdge, hr, nearestLoop, nearestStep, Shape.edgeDistSq,
      Shape.edge, distSqToSegment, distSq, ringShape]

/-- Witness for C5: applying the characterization at the concrete rectangle
ring, whose `nearestEdge` query returns edge 1. -/
theorem nearestEdge_trailing_index_witness :
    1 < ringShape.points.length ∧
      ringShape.edgeDistSq (5, 1 / 10) 1 ≤ (5 : ℚ) ^ 2 :=
  ⟨((nearestEdge_trailing_index.1 ringShape (5, 1 / 10) 5).2 1
      nearestEdge_trailing_index.2).1,
   ((nearestEdge_trailing_index.1 ringShape (5, 1 / 10) 5).2 1
      nearestEdge_trailing_index.2).2.1⟩

/-- C9: constructing a shape with `kind` unspecified (`None`), or setting the
kind to `None`, succeeds and yields kind `"polygon"` (the setter replaces
`None` by `"polygon"` before validating). -/
theorem none_shape_type_defaults_to_polygon (label : Option String)
    (flags : Option Flags) (gid : Option Int) (desc : Option String) (s : Shape) :
    Shape.init label none flags gid desc =
        .ok { label := label, group_id := gid, points := [], fill := false,
              selected := false, shape_type := "polygon", flags := flags,
              description := desc, closed := false, highlightIndex := none,
              highlightMode := NEAR_VERTEX } ∧
      s.setShapeType none = .ok { s with shape_type := "polygon" } := by
  constructor
  · simp [Shape.init, shapeTypeOfValue, validShapeTypes]
  · simp [Shape.setShapeType, shapeTypeOfValue, validShapeTypes]

/-- The child-splicing while-loop is the fold of the one-hole splice step
over the child sibling chain. -/
theorem spliceChildren_eq_foldl (approx : List Point → List Point) (scale : ℚ)
    (contours : List (List Point)) (hier : List HierEntry) :
    ∀ (fuel : Nat) (idx : Int) (c : List Point),
      spliceChildren approx scale contours hier fuel idx c =
        (hierChain hier fuel idx).foldl (spliceStep approx scale contours) c := by
  intro fuel
  induction fuel with
  | zero => intro idx c; simp [spliceChildren, hierChain]
  | succ fuel ih =>
      intro idx c
      by_cases h : 0 ≤ idx ∧ idx.toNat < hier.length
      · simp only [spliceChildren, hierChain, dif_pos h, List.foldl_cons]
        rw [ih]
        rfl
      · simp [spliceChildren, hierChain, dif_neg h]

/-- The outer while-loop of `toPolygons` is the filterMap of the ring
builder over the outer sibling chain. -/
theorem toPolygonsGo_eq (m : MaskShape) (approx : List Point → List Point)
    (contours : List (List Point)) (hier : List HierEntry) :
    ∀ (fuel : Nat) (idx : Int),
      toPolygonsGo m approx contours hier fuel idx =
        (hierChain hier fuel idx).filterMap (fun i =>
          let r := ringOf approx m.scale contours hier i
          if r.length < 5 then none else some (addAll m.newPolygonShape r)) := by
  intro fuel
  induction fuel with
  | zero => intro idx; simp [toPolygonsGo, hierChain]
  | succ fuel ih =>
      intro idx
      by_cases h : 0 ≤ idx ∧ idx.toNat < hier.length
      · have hget : hier.getD idx.toNat ⟨-1, -1, -1, -1⟩ = hier.get ⟨idx.toNat, h.2⟩ := by
          simp [List.getD_eq_getElem?_getD, List.getElem?_eq_getElem h.2,
            List.get_eq_getElem]
        have hring :
            spliceChildren approx m.scale contours hier (hier.length + 1)
                (hier.get ⟨idx.toNat, h.2⟩).child
                (descaleClose m.scale (approx (contours.getD idx.toNat []))) =
              ringOf approx m.scale contours hier idx.toNat := by
          rw [spliceChildren_eq_foldl, ringOf, hget]
        simp only [toPolygonsGo, hierChain, dif_pos h, List.filterMap_cons]
        rw [hring, ih]
        by_cases h5 : (ringOf approx m.scale contours hier idx.toNat).length < 5 <;>
          simp [h5]
      · simp [toPolygonsGo, hierChain, dif_neg h]

/-- Feeding a point list to `addPoint` starting from a shape with non-empty
points `p0 :: acc`: every occurrence of the first point `p0` closes the
shape instead of being appended, and every other point is appended in
order. -/
theorem addAll_points_closed (l : List Point) :
    ∀ (s : Shape) (p0 : Point) (acc : List Point), s.points = p0 :: acc →
      (addAll s l).points = s.points ++ l.filter (fun q => q ≠ p0) ∧
        (addAll s l).closed = (s.closed || l.any (fun q => q = p0)) := by
  induction l with
  | nil => intro s p0 acc h; simp [addAll]
  | cons q rest ih =>
      intro s p0 acc h
      by_cases hq : q = p0
      · have haddq : s.addPoint q = { s with closed := true } := by
          simp [Shape.addPoint, h, hq, Shape.close]
        have hstep : addAll s (q :: rest) = addAll { s with closed := true } rest := by
          simp [addAll, List.foldl_cons, haddq]
        obtain ⟨hp, hc⟩ := ih { s with closed := true } p0 acc (by simpa using h)
        rw [hstep, hp, hc]
        simp [hq]
      · have haddq : s.addPoint q = { s with points := s.points ++ [q] } := by
          simp [Shape.addPoint, h, hq]
        have hstep : addAll s (q :: rest) =
            addAll { s with points := s.points ++ [q] } rest := by
          simp [addAll, List.foldl_cons, haddq]
        obtain ⟨hp, hc⟩ := ih { s with points := s.points ++ [q] } p0 (acc ++ [q])
          (by simp [h])
        rw [hstep, hp, hc]
        simp [hq, List.append_assoc]

/-- `addPoint` only touches `points` and `closed`; in particular the kind of
every shape produced by feeding a ring into a fresh polygon shape stays
`"polygon"`. -/
theorem addAll_fields (l : List Point) :
    ∀ s : Shape, (addAll s l).shape_type = s.shape_type ∧
      (addAll s l).label = s.label := by
  induction l with
  | nil => intro s; simp [addAll]
  | cons q rest ih =>
      intro s
      have hstep : addAll s (q :: rest) = addAll (s.addPoint q) rest := by
        simp [addAll, List.foldl_cons]
      rw [hstep]
      obtain ⟨h1, h2⟩ := ih (s.addPoint q)
      rw [h1, h2]
      rw [Shape.addPoint]
      cases s.points with
      | nil => simp
      | cons p0 r => by_cases hq : q = p0 <;> simp [hq, Shape.close]

/-- A descaled-and-closed contour is a ring: empty, or of length at least 2
with equal first and last points. -/
theorem descaleClose_ringOK (scale : ℚ) (l : List Point) :
    ringOK (descaleClose scale l) := by
  cases l with
  | nil => left; simp [descaleClose]
  | cons a rest =>
      right
      have hform : descaleClose scale (a :: rest) =
          ((a.1 / scale, a.2 / scale) ::
            rest.map (fun q => (q.1 / scale, q.2 / scale))) ++
              [(a.1 / scale, a.2 / scale)] := by
        simp [descaleClose]
      constructor
      · rw [hform]; simp
      · rw [hform, List.getLast?_concat]
        simp

/-- The one-hole splice step preserves the ring invariant. -/
theorem spliceStep_ringOK (approx : List Point → List Point) (scale : ℚ)
    (contours : List (List Point)) (c : List Point) (j : Nat) (h : ringOK c) :
    ringOK (spliceStep approx scale contours c j) := by
  rw [spliceStep]
  by_cases hcond :
      (10 : ℚ) / scale ≤ ((contours.getD j [] : List Point).length : ℚ)
  · simp only [hcond, if_true]
    have hcc := descaleClose_ringOK scale (approx (contours.getD j []))
    rcases h with hnil | ⟨h2, hhl⟩
    · subst hnil
      simpa using hcc
    · cases hc : c with
      | nil => subst hc; simp at h2
      | cons a tail =>
          subst hc
          have htail : tail ≠ [] := by
            intro hh
            rw [hh] at h2
            simp at h2
          obtain ⟨b, hb⟩ : ∃ b, tail.getLast? = some b := by
            cases hgl : tail.getLast? with
            | none => exact absurd (List.getLast?_eq_none_iff.mp hgl) htail
            | some b => exact ⟨b, rfl⟩
          have hab : a = b := by
            have h1 : (a :: tail).getLast? = some b := by
              have : (a :: tail) = [a] ++ tail := by simp
              rw [this, List.getLast?_append, hb]
              rfl
            rw [h1] at hhl
            simpa using hhl
          right
          constructor
          · simp only [List.length_append, List.length_take, List.length_drop]
            omega
          · have hhead : ((a :: tail).take 2 ++
                descaleClose scale (approx (contours.getD j [])) ++
                  (a :: tail).drop 1).head? = some a := by
              cases tail with
              | nil => exact absurd rfl htail
              | cons t ts => simp
            have hlastr : ((a :: tail).take 2 ++
                descaleClose scale (approx (contours.getD j [])) ++
                  (a :: tail).drop 1).getLast? = some b := by
              rw [List.getLast?_append]
              simp only [List.drop_one, List.tail_cons]
              rw [hb]
              rfl
            rw [hhead, hlastr, hab]
  · simp only [hcond, if_false]
    exact h

/-- Every ring built by `ringOf` satisfies the ring invariant. -/
theorem ringOf_ringOK (approx : List Point → List Point) (scale : ℚ)
    (contours : List (List Point)) (hier : List HierEntry) (i : Nat) :
    ringOK (ringOf approx scale contours hier i) := by
  rw [ringOf]
  have key : ∀ (js : List Nat) (c : List Point), ringOK c →
      ringOK (js.foldl (spliceStep approx scale contours) c) := by
    intro js
    induction js with
    | nil => intro c hc; simpa using hc
    | cons j rest ih =>
        intro c hc
        simpa [List.foldl_cons] using
          ih (spliceStep approx scale contours c j)
            (spliceStep_ringOK approx scale contours c j hc)
  exact key _ _ (descaleClose_ringOK scale _)

/-- A list whose `getLast?` is `some a` contains `a`. -/
theorem mem_of_getLast?_eq_some {l : List Point} {a : Point}
    (h : l.getLast? = some a) : a ∈ l := by
  induction l with
  | nil => simp at h
  | cons b t ih =>
      cases t with
      | nil =>
          simp only [List.getLast?_singleton] at h
          injection h with h
          exact h ▸ List.mem_cons_self b []
      | cons c ts =>
          rw [List.getLast?_cons_cons] at h
          exact List.mem_cons_of_mem b (ih h)

/-- C1: `MaskShape.toPolygons(epsilon)` computes exactly the spec-side
description `toPolygonsSpec`: outer contours are traversed in sibling-chain
order from hierarchy index 0; each outer ring is simplified, descaled by
`1/scale` and closed by appending its first point; each child (hole) contour
with at least `10/scale` raw points is simplified and descaled identically,
closed, and spliced into the current ring exactly as
`outer[0:2] ++ hole(closed) ++ outer[1:]` (see `spliceStep`); and any
resulting ring with fewer than 5 points is discarded, producing no shape
(the `filterMap` in `toPolygonsSpec`). -/
theorem mask_toPolygons_splices_holes (m : MaskShape)
    (approx : List Point → List Point) (contours : List (List Point))
    (hier : List HierEntry) :
    m.toPolygons approx contours hier = toPolygonsSpec m approx contours hier := by
  rw [MaskShape.toPolygons, toPolygonsSpec]
  by_cases h : contours.length = 0
  · simp [h]
  · simp only [h, if_false, toPolygonsGo_eq]

/-- C10: every shape emitted by `toPolygons` is closed, and its point list
does not end with a repeat of its first point: the closing duplicate at the
end of each ring (and any other repeat of the ring's first point) is
consumed by `addPoint`'s first-point check, which sets `closed` instead of
appending. -/
theorem toPolygons_shapes_closed (m : MaskShape) (approx : List Point → List Point)
    (contours : List (List Point)) (hier : List HierEntry) (s : Shape)
    (hs : s ∈ m.toPolygons approx contours hier) :
    s.isClosed = true ∧
      (2 ≤ s.points.length → s.points.getLast? ≠ s.points.head?) := by
  rw [MaskShape.toPolygons] at hs
  by_cases h0 : contours.length = 0
  · rw [if_pos h0] at hs
    simp at hs
  · rw [if_neg h0, toPolygonsGo_eq] at hs
    rw [List.mem_filterMap] at hs
    obtain ⟨i, hi, hfi⟩ := hs
    simp only at hfi
    by_cases h5 : (ringOf approx m.scale contours hier i).length < 5
    · rw [if_pos h5] at hfi
      exact absurd hfi (by simp)
    · rw [if_neg h5] at hfi
      have hsa : addAll m.newPolygonShape (ringOf approx m.scale contours hier i) = s := by
        injection hfi
      have hrOK := ringOf_ringOK approx m.scale contours hier i
      cases hr : ringOf approx m.scale contours hier i with
      | nil =>
          rw [hr] at h5
          simp at h5
      | cons r0 rest =>
          rw [hr] at hsa h5 hrOK
          have hrest : rest ≠ [] := by
            intro hh
            rw [hh] at h5
            simp at h5
          rcases hrOK with hnil | ⟨-, hhl⟩
          · exact absurd hnil (by simp)
          obtain ⟨b, hb⟩ : ∃ b, rest.getLast? = some b := by
            cases hgl : rest.getLast? with
            | none => exact absurd (List.getLast?_eq_none_iff.mp hgl) hrest
            | some b => exact ⟨b, rfl⟩
          have hr0b : r0 = b := by
            have h1 : (r0 :: rest).getLast? = some b := by
              have hsplit : (r0 :: rest) = [r0] ++ rest := by simp
              rw [hsplit, List.getLast?_append, hb]
              rfl
            rw [h1] at hhl
            simpa using hhl
          have hmem : r0 ∈ rest := mem_of_getLast?_eq_some (hr0b ▸ hb)
          have hstep : addAll m.newPolygonShape (r0 :: rest) =
              addAll { m.newPolygonShape with points := [r0] } rest := by
            simp [addAll, List.foldl_cons, Shape.addPoint, MaskShape.newPolygonShape]
          obtain ⟨hp, hc⟩ := addAll_points_closed rest
            { m.newPolygonShape with points := [r0] } r0 [] (by simp)
          rw [hstep] at hsa
          constructor
          · rw [← hsa, Shape.isClosed, hc]
            simp only [Bool.or_eq_true, List.any_eq_true]
            right
            exact ⟨r0, hmem, by simp⟩
          · intro hlen
            rw [← hsa] at hlen ⊢
            rw [hp] at hlen ⊢
            have hptseq :
                ({ m.newPolygonShape with points := [r0] } : Shape).points ++
                    rest.filter (fun q => q ≠ r0) =
                  [r0] ++ rest.filter (fun q => q ≠ r0) := by
              simp [MaskShape.newPolygonShape]
            rw [hptseq] at hlen ⊢
            have hfne : rest.filter (fun q => q ≠ r0) ≠ [] := by
              intro hh
              rw [hh] at hlen
              simp at hlen
            obtain ⟨q, hq⟩ : ∃ q, (rest.filter (fun q => q ≠ r0)).getLast? = some q := by
              cases hgl : (rest.filter (fun q => q ≠ r0)).getLast? with
              | none => exact absurd (List.getLast?_eq_none_iff.mp hgl) hfne
              | some q => exact ⟨q, rfl⟩
            have hqf : q ∈ rest.filter (fun q => q ≠ r0) :=
              mem_of_getLast?_eq_some hq
            have hqne : q ≠ r0 := by
              have := (List.mem_filter.mp hqf).2
              simpa using this
            have hhead :
                (([r0] : List Point) ++ rest.filter (fun q => q ≠ r0)).head? =
                  some r0 := by simp
            rw [List.getLast?_append, hq, hhead]
            simp only [Option.or_some]
            intro hcontra
            injection hcontra with hcontra
            exact hqne hcontra

/-- Concrete evaluation: the single 5-point outer contour at scale 1 yields
exactly one polygon shape, with the closing duplicate consumed. -/
theorem toPolygons_contoursEx : maskEx.toPolygons id contoursEx hierEx = [shapeEx] := by
  rw [MaskShape.toPolygons]
  norm_num [contoursEx, hierEx, maskEx, toPolygonsGo, spliceChildren,
    descaleClose, addAll, Shape.addPoint, Shape.close, MaskShape.newPolygonShape,
    shapeEx, List.foldl_cons, Prod.ext_iff]

/-- Witness for C10 at the concrete mask-contour input `contoursEx`. -/
theorem toPolygons_shapes_closed_witness :
    shapeEx.isClosed = true ∧
      (2 ≤ shapeEx.points.length →
        shapeEx.points.getLast? ≠ shapeEx.points.head?) :=
  toPolygons_shapes_closed maskEx id contoursEx hierEx shapeEx
    (by rw [toPolygons_contoursEx]; simp)

end Labelme
